import Mathlib

/-!
Verification development for `scripts/iscsictl.py`: remote iSCSI
provisioning over SSH.  The script is embedded shallowly:

* file contents are `List Char` (the bytes the remote `cat`/`echo` see);
* the remote filesystem is an association list from paths to contents;
* `re.search('^LINE$', cfg, re.MULTILINE)` is embedded by a small
  Brzozowski-derivative matcher over the fragment of Python regular
  expressions the script's configuration lines live in (literals, `.`,
  `*`, `+`, and backslash escapes of punctuation); patterns outside the
  fragment make the compiler return `none`, mirroring the fact that such
  calls leave the modelled fragment;
* `echo -e` escape processing is embedded for the sequences
  backslash-backslash, backslash-n, backslash-t and backslash-c; other
  sequences are kept verbatim;
* the ssh transport is assumed to deliver command arguments faithfully;
  the one place where the script itself guards against a corrupted
  transport (the verify-and-revert logic of `remove_cfg`) is modelled by
  an explicit write-channel parameter `writeF`.
-/

set_option autoImplicit false

namespace Iscsictl

/-- Regular expressions of the modelled Python `re` fragment. -/
inductive RE where
  | fail : RE
  | eps : RE
  | chr (c : Char) : RE
  | anyc : RE
  | seq (a b : RE) : RE
  | alt (a b : RE) : RE
  | star (a : RE) : RE
  deriving DecidableEq

/-- Does the regular expression accept the empty word? -/
def RE.nullable : RE → Bool
  | .fail => false
  | .eps => true
  | .chr _ => false
  | .anyc => false
  | .seq a b => a.nullable && b.nullable
  | .alt a b => a.nullable || b.nullable
  | .star _ => true

/-- Brzozowski derivative; `.anyc` is Python `.`, which does not match a
newline. -/
def RE.deriv : RE → Char → RE
  | .fail, _ => .fail
  | .eps, _ => .fail
  | .chr d, c => if d = c then .eps else .fail
  | .anyc, c => if c = '\n' then .fail else .eps
  | .seq a b, c =>
      if a.nullable then .alt (.seq (a.deriv c) b) (b.deriv c)
      else .seq (a.deriv c) b
  | .alt a b, c => .alt (a.deriv c) (b.deriv c)
  | .star a, c => .seq (a.deriv c) (.star a)

/-- Whole-word match of a regular expression against a word. -/
def reMatch (r : RE) (s : List Char) : Bool :=
  (s.foldl RE.deriv r).nullable

/-- Sequential composition of a list of regular expressions. -/
def seqList (l : List RE) : RE := l.foldr RE.seq RE.eps

/-- The literal regular expression matching exactly the word `l`. -/
def litRE (l : List Char) : RE := seqList (l.map RE.chr)

/-- Compiler from a pattern string (the configuration line interpolated
into `'^%s$' % line`) to the modelled `re` fragment.  `acc` holds the
atoms parsed so far in reverse; `lastQ` records whether the previous
atom may take a postfix quantifier (Python rejects `**`, and a leading
quantifier, with `re.error`).  Metacharacters outside the fragment
return `none`. -/
def parseREAux : List Char → List RE → Bool → Option (List RE)
  | [], acc, _ => some acc.reverse
  | c :: rest, acc, lastQ =>
    if c = '.' then parseREAux rest (RE.anyc :: acc) true
    else if c = '*' then
      match acc, lastQ with
      | a :: acc', true => parseREAux rest (RE.star a :: acc') false
      | _, _ => none
    else if c = '+' then
      match acc, lastQ with
      | a :: acc', true => parseREAux rest (RE.seq a (RE.star a) :: acc') false
      | _, _ => none
    else if c = '\\' then
      match rest with
      | [] => none
      | d :: rest' =>
        if d = 't' then parseREAux rest' (RE.chr '\t' :: acc) true
        else if d.isAlphanum then none
        else parseREAux rest' (RE.chr d :: acc) true
    else if ['^', '$', '?', '\x7b', '\x7d', '[', ']', '|', '(', ')', '\n'].contains c then
      none
    else parseREAux rest (RE.chr c :: acc) true

/-- Compile one configuration line into the regular expression that
`re.search('^%s$' % line, cfg, re.MULTILINE)` matches each line of `cfg`
against. -/
def compileLine (l : List Char) : Option RE :=
  (parseREAux l [] false).map seqList

/-- Characters that stand for themselves both when interpolated into the
search pattern and when written by `echo -e`: not a regex metacharacter,
not a backslash, not a newline. -/
def plainChar (c : Char) : Bool :=
  !(['.', '^', '$', '*', '+', '?', '\x7b', '\x7d', '[', ']', '\\', '|', '(', ')', '\n'].contains c)

/-- A nonempty line all of whose characters are plain. -/
def plainLine (l : List Char) : Bool := !l.isEmpty && l.all plainChar

/-- Does the pattern `pat`, compiled as a line pattern, match the word
`target`?  `false` also when `pat` leaves the modelled fragment. -/
def matchesLine (pat target : List Char) : Bool :=
  match compileLine pat with
  | some r => reMatch r target
  | none => false

/-- Does a line match itself when used as its own search pattern? -/
def selfMatches (l : List Char) : Bool := matchesLine l l

/-- Python `cfg.split('\n')`: split on every newline, keeping empty
segments (`splitNl [] = [[]]`, like `''.split('\n') = ['']`). -/
def consHead (c : Char) : List (List Char) → List (List Char)
  | [] => [[c]]
  | h :: t => (c :: h) :: t

def splitNl : List Char → List (List Char)
  | [] => [[]]
  | c :: s => if c = '\n' then [] :: splitNl s else consHead c (splitNl s)

/-- `re.search('^R$', cfg, re.MULTILINE)`: some newline-delimited segment
of `cfg` is matched entirely by `R`.  (The compiled fragment contains no
newline, so segment-wise matching coincides with the anchored multiline
search.) -/
def reSearchLines (r : RE) (cfg : List Char) : Bool :=
  (splitNl cfg).any (fun seg => reMatch r seg)

/-- Join a list of lines into file content, terminating every line with a
newline. -/
def joinAll : List (List Char) → List Char
  | [] => []
  | a :: t => a ++ '\n' :: joinAll t

/-- Number of full lines of `c` equal to `l`. -/
def lineCount (c : List Char) (l : List Char) : Nat :=
  (splitNl c).count l

/-- Python substring test `needle in hay`. -/
def hasSub : List Char → List Char → Bool
  | hay, needle =>
    if needle.isPrefixOf hay then true
    else
      match hay with
      | [] => false
      | _ :: t => hasSub t needle

/-- The bytes `echo -e line >> file` appends: the line with the modelled
escape sequences processed, plus a trailing newline (suppressed by a
backslash-c sequence). -/
def echoBytes : List Char → List Char
  | [] => ['\n']
  | c :: r =>
    if c = '\\' then
      match r with
      | [] => ['\\', '\n']
      | d :: r' =>
        if d = 'c' then []
        else if d = 'n' then '\n' :: echoBytes r'
        else if d = 't' then '\t' :: echoBytes r'
        else if d = '\\' then '\\' :: echoBytes r'
        else '\\' :: d :: echoBytes r'
    else c :: echoBytes r

/-- One left-to-right, non-overlapping replacement pass removing every
occurrence of `pat` (Python `s.replace(pat, '')` for nonempty `pat`);
`fuel` bounds the recursion and is adequate whenever `fuel ≥ s.length`. -/
def removeAux (pat : List Char) : Nat → List Char → List Char
  | _, [] => []
  | 0, s => s
  | Nat.succ n, c :: rest =>
    if pat.isPrefixOf (c :: rest) then removeAux pat n ((c :: rest).drop pat.length)
    else c :: removeAux pat n rest

/-- Python `s.replace(pat, '')` for nonempty `pat`. -/
def removeOcc (pat s : List Char) : List Char := removeAux pat s.length s

/-- The content transformation of `ISCSI.remove_cfg` (iscsictl.py lines
206-208): for each target line, remove every occurrence of the line
followed by a newline. -/
def removeAll (cfg : List Char) (lines : List (List Char)) : List Char :=
  lines.foldl (fun c l => removeOcc (l ++ ['\n']) c) cfg

/-- Modelled from the spec: "filters out every exact line (including its
trailing line terminator) for each target line" — remove exactly the
full lines equal to one of the targets, leaving all other lines intact.
Used as the reference point the source's `removeAll` is compared with. -/
def specLineRemove (ls : List (List Char)) (targets : List (List Char)) : List Char :=
  joinAll (ls.filter (fun a => decide (a ∉ targets)))

/-- The extension `ISCSI.append_cfg` (iscsictl.py lines 193-200) appends
to a file whose current content is `cfg`: each line is compiled to its
search pattern (a `re.error` aborts the call, modelled by `none`), every
line is searched against the content read once at the start, and the
lines not found are echoed in order. -/
def appendSelect (cfg : List Char) : List (List Char) → Option (List Char)
  | [] => some []
  | l :: ls =>
    match compileLine l with
    | none => none
    | some r =>
      match appendSelect cfg ls with
      | none => none
      | some rest =>
        some (if reSearchLines r cfg then rest else echoBytes l ++ rest)

/-- Content-level effect of `ISCSI.append_cfg` on the edited file. -/
def appendContent (cfg : List Char) (lines : List (List Char)) : Option (List Char) :=
  (appendSelect cfg lines).map (fun ext => cfg ++ ext)

/-! ### The remote filesystem -/

abbrev Path := List Char

/-- The remote filesystem seen through `cat`, `echo`, `cp`, `mv`, `rm`:
an association list from paths to contents (first binding wins). -/
abbrev FS := List (Path × List Char)

def fsRead : FS → Path → Option (List Char)
  | [], _ => none
  | (q, c) :: t, p => if q = p then some c else fsRead t p

def fsWrite : FS → Path → List Char → FS
  | [], p, c => [(p, c)]
  | (q, d) :: t, p, c => if q = p then (p, c) :: t else (q, d) :: fsWrite t p c

def fsErase : FS → Path → FS
  | [], _ => []
  | (q, d) :: t, p => if q = p then fsErase t p else (q, d) :: fsErase t p

/-- Errors surfaced by the modelled script. -/
inductive Err where
  | readError : Err
  | reError : Err
  | editVerification (p : Path) : Err
  | configuration : Err
  | alreadyBound : Err
  | loopCreation : Err
  | deployVerification : Err
  deriving DecidableEq

/-- `ISCSI.append_cfg` (iscsictl.py lines 193-200) at filesystem level:
read the file, compute the appended bytes, write them after the existing
content. -/
def ISCSI.append_cfg (fs : FS) (fname : Path) (lines : List (List Char)) : Except Err FS :=
  match fsRead fs fname with
  | none => .error .readError
  | some cfg =>
    match appendContent cfg lines with
    | none => .error .reError
    | some c' => .ok (fsWrite fs fname c')

/-- Result of `ISCSI.remove_cfg`: the filesystem after the edit and, when
the re-read content differed from the expected filtered content, the
forensic path named by the raised exception. -/
structure RemoveOut where
  fs : FS
  err : Option Path
  deriving DecidableEq

/-- `ISCSI.remove_cfg` (iscsictl.py lines 202-223).  `writeF` is the
write channel: the bytes that actually land in the file when the script
writes the filtered content `cfg` (the real channel is
`echo -e -n '"cfg"' > fname` through ssh, which can mangle the content;
a faithful channel is `writeF = id`).  The function reads the file,
filters the target lines, backs the original up at `fname ++ ".BACKUP"`,
writes through the channel, re-reads, and on mismatch copies the failed
write to `fname ++ ".EDIT"`, restores the original from the backup and
reports the forensic path; on match it removes the backup. -/
def ISCSI.remove_cfg (fs : FS) (fname : Path) (lines : List (List Char))
    (writeF : List Char → List Char) : Except Err RemoveOut :=
  match fsRead fs fname with
  | none => .error .readError
  | some cfg0 =>
    let cfg := removeAll cfg0 lines
    let fbackup := fname ++ (".BACKUP").data
    let fs1 := fsWrite fs fbackup cfg0
    let fs2 := fsWrite fs1 fname (writeF cfg)
    match fsRead fs2 fname with
    | none => .error .readError
    | some new_cfg =>
      if cfg = new_cfg then .ok ⟨fsErase fs2 fbackup, none⟩
      else
        let fedit := fname ++ (".EDIT").data
        let fs3 := fsWrite fs2 fedit new_cfg
        match fsRead fs3 fbackup with
        | none => .error .readError
        | some b => .ok ⟨fsErase (fsWrite fs3 fname b) fbackup, some fedit⟩

/-! ### Target deployment (iscsictl.py lines 229-313)

The world a `Target` mutates: the remote filesystem plus the loop-device
binding table reported by `losetup -a` (modelled structurally as pairs
`(loop device, backing file)` rather than re-parsing the textual
listing).  Package installation (`zypper`), `chkconfig` and the service
restarts act on neither and are not modelled. -/

structure World where
  fs : FS
  loops : List (Path × Path)
  deriving DecidableEq

/-- Outcome of an effectful step: either the new world, or a raised
exception together with the world at the moment of raising. -/
inductive Outcome where
  | ok (w : World) : Outcome
  | err (e : Err) (w : World) : Outcome
  deriving DecidableEq

/-- Sequencing: an exception aborts the rest of `deploy()`. -/
def Outcome.then (o : Outcome) (f : World → Outcome) : Outcome :=
  match o with
  | .ok w => f w
  | .err e w => .err e w

/-- `Target.find_loop` (lines 241-247): look the loop path up in the
`losetup -a` table, returning the pair `(loop device, backing file)`. -/
def Target.find_loop : List (Path × Path) → Path → Option (Path × Path)
  | [], _ => none
  | (ldev, lfile) :: t, loop =>
    if loop = ldev then some (ldev, lfile) else Target.find_loop t loop

/-- Modelled effect of `dd if=/dev/zero bs=1M count=size` followed by
`fdisk` partition initialisation on the backing file: an opaque byte
image of the requested size.  No claim depends on these bytes, only on
which file they are written to. -/
def diskImage (size : Nat) : List Char := List.replicate (size * 1048576) '0'

/-- `Target.create_loop` (lines 259-274): refuse an already bound loop
path, otherwise zero-fill and partition the backing file, bind the loop
device, and re-verify the binding. -/
def Target.create_loop (loop path : Path) (size : Nat) (w : World) : Outcome :=
  match Target.find_loop w.loops loop with
  | some _ => .err .alreadyBound w
  | none =>
    let w1 : World := { fs := fsWrite w.fs path (diskImage size),
                        loops := w.loops ++ [(loop, path)] }
    match Target.find_loop w1.loops loop with
    | some _ => .ok w1
    | none => .err .loopCreation w1

def ietdConfPath : Path := ("/etc/ietd.conf").data
def bootLocalPath : Path := ("/etc/rc.d/boot.local").data
def volumePath : Path := ("/proc/net/iet/volume").data

/-- The IQN string `'iqn.2015-01.qa.cloud.suse.de:%s' % iqn_id`. -/
def targetIQN (iqn_id : List Char) : List Char :=
  ("iqn.2015-01.qa.cloud.suse.de:").data ++ iqn_id

/-- The three `/etc/ietd.conf` lines of lines 287-291. -/
def ietdLines (device iqn_id : List Char) : List (List Char) :=
  [("IncomingUser user passwd").data,
   ("Target ").data ++ targetIQN iqn_id,
   ("\"\tLun 0 Path=").data ++ device ++ [ '\"' ]]

/-- `'rciscsitarget restart'` (line 300). -/
def restartLine : List Char := ("rciscsitarget restart").data

/-- Python `'%s' % path` for the optional backing path: `None` renders as
the string `None`. -/
def renderPath : Option Path → List Char
  | some p => p
  | none => ("None").data

/-- `'losetup %s %s' % (device, path)` (line 305). -/
def losetupLine (device : List Char) (pathO : Option Path) : List Char :=
  ("losetup ").data ++ device ++ [' '] ++ renderPath pathO

/-- The two boot-persistence lines of lines 304-307, in source order. -/
def bootLines (device : List Char) (pathO : Option Path) : List (List Char) :=
  [losetupLine device pathO, restartLine]

/-- The boot-persistence step of `Target.deploy` (lines 298-308): remove
any `rciscsitarget restart` line from `/etc/rc.d/boot.local`, then append
the loop re-bind line followed by the restart line.  The write channel of
the embedded `remove_cfg` is faithful (`id`). -/
def Target.bootPersist (device : List Char) (pathO : Option Path) (w : World) : Outcome :=
  match ISCSI.remove_cfg w.fs bootLocalPath [restartLine] id with
  | .error e => .err e w
  | .ok r =>
    match r.err with
    | some p => .err (.editVerification p) { w with fs := r.fs }
    | none =>
      match ISCSI.append_cfg r.fs bootLocalPath (bootLines device pathO) with
      | .error e => .err e { w with fs := r.fs }
      | .ok fs' => .ok { w with fs := fs' }

/-- Iterate the boot-persistence step, as happens across successive
`Target.deploy` invocations for the same target. -/
def Target.bootPersistN (device : List Char) (pathO : Option Path) : Nat → World → Outcome
  | 0, w => .ok w
  | Nat.succ n, w => (Target.bootPersist device pathO w).then (Target.bootPersistN device pathO n)

/-- `Target.deploy` up to but excluding the final export-table check
(lines 276-308): the loop-device branch, the `/etc/ietd.conf` edit, the
service enable/restart (external, not modelled) and the boot-persistence
step. -/
def Target.deploySteps (device : List Char) (pathO : Option Path) (iqn_id : List Char)
    (size : Nat) (w : World) : Outcome :=
  let loopStep : Outcome :=
    if ("/dev/loop").data.isPrefixOf device then
      match pathO with
      | some p => if p = [] then .err .configuration w else Target.create_loop device p size w
      | none => .err .configuration w
    else .ok w
  (loopStep.then (fun w1 =>
      match ISCSI.append_cfg w1.fs ietdConfPath (ietdLines device iqn_id) with
      | .error e => .err e w1
      | .ok fs' => .ok { w1 with fs := fs' })).then
    (Target.bootPersist device pathO)

/-- `Target.deploy` (lines 276-313): the steps above followed by the
export-table verification of lines 310-313. -/
def Target.deploy (device : List Char) (pathO : Option Path) (iqn_id : List Char)
    (size : Nat) (w : World) : Outcome :=
  (Target.deploySteps device pathO iqn_id size w).then (fun w1 =>
    match fsRead w1.fs volumePath with
    | none => .err .readError w1
    | some vol =>
      if hasSub vol (targetIQN iqn_id) then .ok w1
      else .err .deployVerification w1)

/-! ### Initiator deployment (iscsictl.py lines 316-368) -/

/-- Exceptions of the initiator path.  `targetNotFound` carries the id
and the raw discovery output, mirroring
`'Target with ID %s not found: [%s]' % (self.iqn_id, discovered)`;
`valueError` is Python's `ValueError` from unpacking `name.split()` into
two variables; `notLoggedIn` is the error the specification attributes to
`logout()` (the source never raises it). -/
inductive InitErr where
  | valueError : InitErr
  | targetNotFound (iqn_id raw : List Char) : InitErr
  | notLoggedIn : InitErr
  deriving DecidableEq

/-- Python whitespace for `str.split()` with no argument. -/
def wsChar (c : Char) : Bool := [' ', '\t', '\n', '\r', '\x0b', '\x0c'].contains c

/-- Python `s.split()`: split on runs of whitespace, discarding empty
fields.  `acc` holds the current field in reverse. -/
def splitWsAux : List Char → List Char → List (List Char)
  | [], acc => if acc.isEmpty then [] else [acc.reverse]
  | c :: r, acc =>
    if wsChar c then
      if acc.isEmpty then splitWsAux r [] else acc.reverse :: splitWsAux r []
    else splitWsAux r (c :: acc)

def pySplitWs (s : List Char) : List (List Char) := splitWsAux s []

/-- The discovery loop of `Initiator.deploy` (lines 354-362): walk the
newline-split segments of the raw output; unpack each into exactly two
whitespace-separated fields (anything else raises `ValueError`); return
the first second field containing the requested id; raise
`targetNotFound` when the segments run out. -/
def discoverGo (iqn_id discovered : List Char) : List (List Char) → Except InitErr (List Char)
  | [] => .error (.targetNotFound iqn_id discovered)
  | seg :: rest =>
    match pySplitWs seg with
    | [_, nm] => if hasSub nm iqn_id then .ok nm else discoverGo iqn_id discovered rest
    | _ => .error .valueError

/-- Discovery selection over the raw `iscsiadm -m discovery` output. -/
def Initiator.discover (iqn_id discovered : List Char) : Except InitErr (List Char) :=
  discoverGo iqn_id discovered (splitNl discovered)

/-- The `Initiator` state: target host, requested id suffix, and the
resolved IQN name, unset until a deploy succeeds (lines 324-329). -/
structure Initiator where
  target_host : List Char
  iqn_id : List Char
  name : Option (List Char)
  deriving DecidableEq

/-- `Initiator.__init__`: the name starts unset. -/
def Initiator.init (th iqn_id : List Char) : Initiator := ⟨th, iqn_id, none⟩

/-- The name-resolution effect of `Initiator.deploy` on the instance:
on success the resolved name is stored; a raised exception leaves the
name as it was. -/
def Initiator.deployDiscovery (ini : Initiator) (discovered : List Char) :
    Initiator × Option InitErr :=
  match Initiator.discover ini.iqn_id discovered with
  | .ok nm => ({ ini with name := some nm }, none)
  | .error e => (ini, some e)

/-- The `iscsiadm -m node -n <name> --logout` invocation: the `-n`
argument as issued (Python renders an unset name as `None`). -/
structure LogoutCmd where
  nameArg : Option (List Char)
  deriving DecidableEq

/-- `Initiator.logout` (lines 366-368): issue the logout command with
whatever `self.name` holds.  The source performs no logged-in check and
can raise nothing itself. -/
def Initiator.logout (ini : Initiator) : Except InitErr LogoutCmd :=
  .ok ⟨ini.name⟩

/-! ### The SSH session and the trust-install exchange
(iscsictl.py lines 107-177) -/

/-- Observable session state: the `_copy_id` flag, whether `_connect`
holds a baked connection, and how many times the interactive
trust-install exchange has run. -/
structure SSHSt where
  copy_id : Bool
  connected : Bool
  exchanges : Nat
  deriving DecidableEq

/-- `SSH.__init__` (lines 110-120): `_copy_id = False`, `_connect = None`. -/
def SSH.initState : SSHSt := ⟨false, false, 0⟩

/-- `SSH.ssh_copy_id` (lines 122-141): skip when the flag is set;
otherwise run the interactive exchange.  The source never sets
`_copy_id` to `True` afterwards. -/
def SSH.ssh_copy_id (s : SSHSt) : SSHSt :=
  if s.copy_id then s else { s with exchanges := s.exchanges + 1 }

/-- `SSH.connect` (lines 155-164): run `ssh_copy_id` unless the flag is
set, then bake the connection. -/
def SSH.connect (s : SSHSt) : SSHSt :=
  let s1 := if s.copy_id then s else SSH.ssh_copy_id s
  { s1 with connected := true }

/-- `SSH.__getattr__` (lines 166-171): a remote operation connects
lazily. -/
def SSH.remoteOp (s : SSHSt) : SSHSt :=
  if s.connected then s else SSH.connect s

/-- `SSH.clean_key` (lines 143-153): a no-op without a connection;
otherwise it scrubs the remote key and sets `_connect = None`. -/
def SSH.clean_key (s : SSHSt) : SSHSt :=
  if s.connected then { s with connected := false } else s

/-- The password prompt suffix recognised by the output watcher. -/
def promptStr : List Char := ("Password: ").data

/-- One step of the `_interact` watcher (lines 128-134): append the
character to the aggregate; if the aggregate now ends with the prompt,
inject the password (counted); otherwise reset the aggregate on a
newline. -/
def interactStep : (List Char × Nat) → Char → (List Char × Nat)
  | (agg, k), c =>
    let agg' := agg ++ [c]
    if promptStr.isSuffixOf agg' then (agg', k + 1)
    else if c = '\n' then ([], k)
    else (agg', k)

/-- Run the watcher over an output stream, returning the final aggregate
and the number of password injections. -/
def interactRun (out : List Char) : List Char × Nat :=
  out.foldl interactStep ([], 0)

/-! ## Lemmas about the filesystem model -/

theorem fsRead_fsWrite_self (fs : FS) (p : Path) (c : List Char) :
    fsRead (fsWrite fs p c) p = some c := by
  induction fs with
  | nil => simp [fsWrite, fsRead]
  | cons e t ih =>
    obtain ⟨q, d⟩ := e
    by_cases h : q = p
    · simp [fsWrite, fsRead, h]
    · simp [fsWrite, fsRead, h, ih]

theorem fsRead_fsWrite_ne (fs : FS) (p : Path) (c : List Char) (q : Path) (h : p ≠ q) :
    fsRead (fsWrite fs p c) q = fsRead fs q := by
  induction fs with
  | nil => simp [fsWrite, fsRead, h]
  | cons e t ih =>
    obtain ⟨x, d⟩ := e
    by_cases hx : x = p
    · subst hx; simp [fsWrite, fsRead, h]
    · simp [fsWrite, fsRead, hx, ih]

theorem fsRead_fsErase_self (fs : FS) (p : Path) :
    fsRead (fsErase fs p) p = none := by
  induction fs with
  | nil => simp [fsErase, fsRead]
  | cons e t ih =>
    obtain ⟨q, d⟩ := e
    by_cases h : q = p
    · simp [fsErase, fsRead, h, ih]
    · simp [fsErase, fsRead, h, ih]

theorem fsRead_fsErase_ne (fs : FS) (p q : Path) (h : p ≠ q) :
    fsRead (fsErase fs p) q = fsRead fs q := by
  induction fs with
  | nil => simp [fsErase, fsRead]
  | cons e t ih =>
    obtain ⟨x, d⟩ := e
    by_cases hx : x = p
    · subst hx; simp [fsErase, fsRead, h, ih]
    · simp [fsErase, fsRead, hx, ih]

theorem append_ne_of_ne_nil (f e : List Char) (he : e ≠ []) : f ++ e ≠ f := by
  intro h
  have hl := congrArg List.length h
  simp only [List.length_append] at hl
  exact he (List.eq_nil_of_length_eq_zero (by omega))

theorem append_ne_append_of_ne (f a b : List Char) (h : a ≠ b) : f ++ a ≠ f ++ b := by
  intro hh
  exact h (List.append_cancel_left hh)

/-! ## Lemmas about the regular-expression matcher -/

theorem reMatch_nil (r : RE) : reMatch r [] = r.nullable := rfl

theorem reMatch_cons (r : RE) (c : Char) (s : List Char) :
    reMatch r (c :: s) = reMatch (r.deriv c) s := rfl

theorem reMatch_fail (s : List Char) : reMatch .fail s = false := by
  induction s with
  | nil => rfl
  | cons c s ih => simpa [reMatch_cons, RE.deriv] using ih

theorem reMatch_alt (a b : RE) (s : List Char) :
    reMatch (.alt a b) s = (reMatch a s || reMatch b s) := by
  induction s generalizing a b with
  | nil => rfl
  | cons c s ih => simpa [reMatch_cons, RE.deriv] using ih (a.deriv c) (b.deriv c)

theorem reMatch_seq_fail (r : RE) (s : List Char) : reMatch (.seq .fail r) s = false := by
  induction s generalizing r with
  | nil => rfl
  | cons c s ih => simpa [reMatch_cons, RE.deriv, RE.nullable] using ih r

theorem reMatch_seq_eps (r : RE) (s : List Char) : reMatch (.seq .eps r) s = reMatch r s := by
  induction s generalizing r with
  | nil => rfl
  | cons c s ih =>
    rw [reMatch_cons, reMatch_cons]
    show reMatch (.alt (.seq (RE.deriv .eps c) r) (r.deriv c)) s = _
    rw [reMatch_alt]
    show (reMatch (.seq .fail r) s || _) = _
    rw [reMatch_seq_fail, Bool.false_or]

theorem litRE_nil : litRE [] = RE.eps := rfl

theorem litRE_cons (c : Char) (l : List Char) :
    litRE (c :: l) = .seq (.chr c) (litRE l) := rfl

theorem reMatch_lit (l s : List Char) : reMatch (litRE l) s = true ↔ s = l := by
  induction l generalizing s with
  | nil =>
    cases s with
    | nil => simp [litRE_nil, reMatch_nil, RE.nullable]
    | cons c s => simp [litRE_nil, reMatch_cons, RE.deriv, reMatch_fail]
  | cons a l ih =>
    cases s with
    | nil => simp [litRE_cons, reMatch_nil, RE.nullable]
    | cons c s =>
      rw [litRE_cons, reMatch_cons]
      by_cases h : a = c
      · subst h
        show reMatch (.seq (if a = a then .eps else .fail) (litRE l)) s = true ↔ _
        simp [reMatch_seq_eps, ih]
      · show reMatch (.seq (if a = c then .eps else .fail) (litRE l)) s = true ↔ _
        simp only [if_neg h, reMatch_seq_fail, Bool.false_eq_true, false_iff, List.cons.injEq,
          not_and]
        exact fun hc => absurd hc.symm h

/-! ## The compiler on plain lines -/

theorem plainChar_spec (c : Char) (h : plainChar c = true) :
    c ≠ '.' ∧ c ≠ '^' ∧ c ≠ '$' ∧ c ≠ '*' ∧ c ≠ '+' ∧ c ≠ '?' ∧ c ≠ '\x7b' ∧ c ≠ '\x7d' ∧
    c ≠ '[' ∧ c ≠ ']' ∧ c ≠ '\\' ∧ c ≠ '|' ∧ c ≠ '(' ∧ c ≠ ')' ∧ c ≠ '\n' := by
  simp only [plainChar, List.contains, Bool.not_eq_true'] at h
  simp only [List.elem_eq_mem, decide_eq_false_iff_not, List.mem_cons, List.not_mem_nil,
    or_false, not_or] at h
  exact h

theorem parseREAux_plain (l : List Char) : ∀ (acc : List RE) (b : Bool),
    (∀ c ∈ l, plainChar c = true) →
    parseREAux l acc b = some (acc.reverse ++ l.map RE.chr) := by
  induction l with
  | nil => intro acc b _; simp [parseREAux]
  | cons c l ih =>
    intro acc b h
    obtain ⟨h1, _, _, h4, h5, _, _, _, _, _, h11, _, _, _, _⟩ :=
      plainChar_spec c (h c (List.mem_cons_self c l))
    have hrest : ∀ x ∈ l, plainChar x = true := fun x hx => h x (List.mem_cons_of_mem _ hx)
    have hcont : (['^', '$', '?', '\x7b', '\x7d', '[', ']', '|', '(', ')', '\n'].contains c) = false := by
      simp only [List.contains, List.elem_eq_mem, decide_eq_false_iff_not, List.mem_cons,
        List.not_mem_nil, or_false, not_or]
      tauto
    rw [parseREAux.eq_def]
    simp only [if_neg h1, if_neg h4, if_neg h5, if_neg h11, hcont, Bool.false_eq_true, if_false]
    rw [ih (RE.chr c :: acc) true hrest]
    simp

theorem compileLine_plain (l : List Char) (h : ∀ c ∈ l, plainChar c = true) :
    compileLine l = some (litRE l) := by
  rw [compileLine, parseREAux_plain l [] false h]
  simp [litRE, seqList]

theorem reSearchLines_lit (l cfg : List Char) :
    reSearchLines (litRE l) cfg = true ↔ l ∈ splitNl cfg := by
  simp [reSearchLines, List.any_eq_true, reMatch_lit]

/-! ## splitNl and joinAll -/

theorem splitNl_newline_cons (s : List Char) :
    splitNl ('\n' :: s) = [] :: splitNl s := by
  simp [splitNl]

theorem splitNl_other_cons (c : Char) (s : List Char) (h : c ≠ '\n') :
    splitNl (c :: s) = consHead c (splitNl s) := by
  simp [splitNl, h]

theorem splitNl_append_line (a : List Char) (s : List Char) (h : '\n' ∉ a) :
    splitNl (a ++ '\n' :: s) = a :: splitNl s := by
  induction a with
  | nil => simp [splitNl_newline_cons]
  | cons c a ih =>
    have hc : c ≠ '\n' := fun hc => h (hc ▸ List.mem_cons_self c a)
    have ha : '\n' ∉ a := fun hm => h (List.mem_cons_of_mem _ hm)
    rw [List.cons_append, splitNl_other_cons c _ hc, ih ha, consHead]

theorem splitNl_joinAll (ls : List (List Char)) (h : ∀ a ∈ ls, '\n' ∉ a) :
    splitNl (joinAll ls) = ls ++ [[]] := by
  induction ls with
  | nil => rfl
  | cons a ls ih =>
    rw [joinAll, splitNl_append_line a _ (h a (List.mem_cons_self a ls)),
      ih (fun x hx => h x (List.mem_cons_of_mem _ hx))]
    rfl

theorem joinAll_append (xs ys : List (List Char)) :
    joinAll (xs ++ ys) = joinAll xs ++ joinAll ys := by
  induction xs with
  | nil => rfl
  | cons a xs ih => simp [joinAll, ih]

/-! ## echoBytes on lines without escapes -/

theorem echoBytes_plain (l : List Char) (h : '\\' ∉ l) :
    echoBytes l = l ++ ['\n'] := by
  induction l with
  | nil => rfl
  | cons c l ih =>
    have hc : c ≠ '\\' := fun hc => h (hc ▸ List.mem_cons_self c l)
    rw [echoBytes.eq_def]
    simp only [if_neg hc]
    rw [ih (fun hm => h (List.mem_cons_of_mem _ hm))]
    rfl

/-! ## append_cfg on plain lines -/

theorem plainLine_chars (l : List Char) (h : plainLine l = true) :
    ∀ c ∈ l, plainChar c = true := by
  simp only [plainLine, Bool.and_eq_true, List.all_eq_true] at h
  exact h.2

theorem plainLine_ne_nil (l : List Char) (h : plainLine l = true) : l ≠ [] := by
  intro hnil
  subst hnil
  simp [plainLine, List.isEmpty] at h

theorem plainLine_no_backslash (l : List Char) (h : plainLine l = true) : '\\' ∉ l :=
  fun hm => ((plainChar_spec _ (plainLine_chars l h _ hm)).2.2.2.2.2.2.2.2.2.2.1) rfl

theorem plainLine_no_newline (l : List Char) (h : plainLine l = true) : '\n' ∉ l :=
  fun hm =>
    ((plainChar_spec _ (plainLine_chars l h _ hm)).2.2.2.2.2.2.2.2.2.2.2.2.2.2) rfl

theorem appendSelect_plain (ls : List (List Char)) (hls : ∀ a ∈ ls, '\n' ∉ a) :
    ∀ (L : List (List Char)), (∀ l ∈ L, plainLine l = true) →
    appendSelect (joinAll ls) L = some (joinAll (L.filter (fun l => decide (l ∉ ls)))) := by
  intro L
  induction L with
  | nil => intro _; rfl
  | cons l L ih =>
    intro hL
    have hpl := hL l (List.mem_cons_self l L)
    have hchars := plainLine_chars l hpl
    rw [appendSelect.eq_def]
    simp only [compileLine_plain l hchars, ih (fun x hx => hL x (List.mem_cons_of_mem _ hx))]
    by_cases hmem : l ∈ ls
    · have hsearch : reSearchLines (litRE l) (joinAll ls) = true := by
        rw [reSearchLines_lit, splitNl_joinAll ls hls]
        exact List.mem_append_left _ hmem
      simp [hsearch, List.filter_cons, hmem]
    · have hsearch : reSearchLines (litRE l) (joinAll ls) = false := by
        rw [Bool.eq_false_iff]
        intro hT
        rw [reSearchLines_lit, splitNl_joinAll ls hls] at hT
        rcases List.mem_append.mp hT with h1 | h2
        · exact hmem h1
        · exact plainLine_ne_nil l hpl (by simpa using h2)
      simp only [hsearch, Bool.false_eq_true, if_false,
        echoBytes_plain l (plainLine_no_backslash l hpl), List.filter_cons, hmem,
        not_false_eq_true, joinAll, Option.some.injEq]
      simp

theorem appendContent_plain (ls L : List (List Char)) (hls : ∀ a ∈ ls, '\n' ∉ a)
    (hL : ∀ l ∈ L, plainLine l = true) :
    appendContent (joinAll ls) L =
      some (joinAll (ls ++ L.filter (fun l => decide (l ∉ ls)))) := by
  rw [appendContent, appendSelect_plain ls hls L hL]
  simp [joinAll_append]

theorem count_one_of_nodup {α : Type} [BEq α] [LawfulBEq α] (L : List α) (a : α)
    (hnd : L.Nodup) (h : a ∈ L) : L.count a = 1 := by
  induction L with
  | nil => cases h
  | cons b t ih =>
    rw [List.count_cons]
    rcases List.mem_cons.mp h with rfl | hmem
    · have hz : t.count a = 0 :=
        List.count_eq_zero.mpr (fun hc => (List.nodup_cons.mp hnd).1 hc)
      simp [hz]
    · have hne : ¬ (a == b) = true := by
        intro hbeq
        have hab : a = b := eq_of_beq hbeq
        subst hab
        exact (List.nodup_cons.mp hnd).1 hmem
      rw [ih (List.nodup_cons.mp hnd).2 hmem]
      have hba : ¬ b = a := fun hba => hne (by simp [hba])
      simp [hne, hba]

theorem append_cfg_ok (fs : FS) (f : Path) (L : List (List Char)) (cfg c' : List Char)
    (h : fsRead fs f = some cfg) (hc : appendContent cfg L = some c') :
    ISCSI.append_cfg fs f L = .ok (fsWrite fs f c') := by
  simp only [ISCSI.append_cfg, h, hc]

theorem lineCount_joinAll (zs : List (List Char)) (l : List Char)
    (hz : ∀ a ∈ zs, '\n' ∉ a) (hl : l ≠ []) :
    lineCount (joinAll zs) l = zs.count l := by
  rw [lineCount, splitNl_joinAll zs hz, List.count_append]
  have h0 : ([[]] : List (List Char)).count l = 0 := by
    rw [List.count_eq_zero]
    simp [hl]
  rw [h0, Nat.add_zero]

/-- Claim C1, counterexample.  The append operation is not idempotent for
every line set: a line is searched for as a regular expression
(`re.search('^%s$' % line, ...)`) but written literally, so the line
`a+` is never found after being appended and is appended again on the
second application. -/
theorem append_cfg_not_idempotent_cex :
    ISCSI.append_cfg [(("/etc/cfg").data, [])] ("/etc/cfg").data [("a+").data]
      = .ok [(("/etc/cfg").data, ("a+\n").data)] ∧
    ISCSI.append_cfg [(("/etc/cfg").data, ("a+\n").data)] ("/etc/cfg").data [("a+").data]
      = .ok [(("/etc/cfg").data, ("a+\na+\n").data)] ∧
    ("a+\na+\n").data ≠ ("a+\n").data :=
  ⟨rfl, rfl, by decide⟩

/-- Claim C1 (amended): for a file made of newline-terminated lines and a
duplicate-free list `L` of plain lines (nonempty, no regex
metacharacters, no backslash, no newline), applying `append_cfg` twice
yields file content equal to applying it once; lines of `L` absent from
the file are appended exactly once after the existing content, and a
line already present is left untouched: it occurs afterwards exactly as
often as before (hence exactly once afterwards whenever it occurred at
most once before). -/
theorem append_cfg_idem
    (fs : FS) (f : Path) (L ls : List (List Char)) (fs₁ fs₂ : FS)
    (hread : fsRead fs f = some (joinAll ls))
    (hls : ∀ a ∈ ls, '\n' ∉ a)
    (hL : ∀ l ∈ L, plainLine l = true)
    (hnd : L.Nodup)
    (h1 : ISCSI.append_cfg fs f L = .ok fs₁)
    (h2 : ISCSI.append_cfg fs₁ f L = .ok fs₂) :
    fsRead fs₂ f = fsRead fs₁ f ∧
    fsRead fs₁ f = some (joinAll (ls ++ L.filter (fun l => decide (l ∉ ls)))) ∧
    ∀ l ∈ L, lineCount (joinAll (ls ++ L.filter (fun l => decide (l ∉ ls)))) l =
      if l ∈ ls then ls.count l else 1 := by
  set Lnew := L.filter (fun l => decide (l ∉ ls)) with hLnew
  have hLn : ∀ a ∈ Lnew, plainLine a = true := fun a ha => hL a (List.mem_of_mem_filter ha)
  have hls' : ∀ a ∈ ls ++ Lnew, '\n' ∉ a := by
    intro a ha
    rcases List.mem_append.mp ha with h | h
    · exact hls a h
    · exact plainLine_no_newline a (hLn a h)
  have hstep1 := append_cfg_ok fs f L (joinAll ls) _ hread (appendContent_plain ls L hls hL)
  rw [hstep1] at h1
  have hfs₁ : fs₁ = fsWrite fs f (joinAll (ls ++ Lnew)) := (Except.ok.injEq _ _).mp h1.symm
  have hread₁ : fsRead fs₁ f = some (joinAll (ls ++ Lnew)) := by
    rw [hfs₁]; exact fsRead_fsWrite_self fs f _
  have hfilter2 : L.filter (fun l => decide (l ∉ ls ++ Lnew)) = [] := by
    rw [List.filter_eq_nil_iff]
    intro l hl
    simp only [decide_eq_true_eq, not_not]
    by_cases hmem : l ∈ ls
    · exact List.mem_append_left _ hmem
    · refine List.mem_append_right _ ?_
      rw [hLnew, List.mem_filter]
      exact ⟨hl, by simpa using hmem⟩
  have hstep2 := append_cfg_ok fs₁ f L (joinAll (ls ++ Lnew)) _ hread₁
    (appendContent_plain (ls ++ Lnew) L hls' hL)
  rw [hfilter2, List.append_nil] at hstep2
  rw [hstep2] at h2
  have hfs₂ : fs₂ = fsWrite fs₁ f (joinAll (ls ++ Lnew)) := (Except.ok.injEq _ _).mp h2.symm
  refine ⟨?_, hread₁, ?_⟩
  · rw [hfs₂, fsRead_fsWrite_self, hread₁]
  · intro l hl
    have hpl := hL l hl
    have hlnil := plainLine_ne_nil l hpl
    rw [lineCount_joinAll _ _ hls' hlnil, List.count_append]
    by_cases hmem : l ∈ ls
    · have hz : Lnew.count l = 0 := by
        rw [List.count_eq_zero]
        intro hcon
        rw [hLnew, List.mem_filter] at hcon
        exact (by simpa using hcon.2 : l ∉ ls) hmem
      simp [hmem, hz]
    · have hz : ls.count l = 0 := by rw [List.count_eq_zero]; exact hmem
      have hc1 : Lnew.count l = 1 := by
        have : Lnew.count l = L.count l := by
          rw [hLnew]
          rw [List.count_filter]
          simp [hmem]
        rw [this]
        exact count_one_of_nodup L l hnd hl
      simp [hmem, hz, hc1]

/-- Claim C10 (confirmed): `append_cfg` is purely append-only — whenever
it succeeds, the file's previous content is a byte-for-byte prefix of
the resulting content, so existing lines are never rewritten, reordered
or deleted and new lines appear only after the original content. -/
theorem append_cfg_append_only (fs : FS) (f : Path) (L : List (List Char))
    (cfg : List Char) (fs' : FS)
    (hread : fsRead fs f = some cfg)
    (h : ISCSI.append_cfg fs f L = .ok fs') :
    ∃ c', fsRead fs' f = some c' ∧ cfg <+: c' := by
  simp only [ISCSI.append_cfg, hread] at h
  cases has : appendSelect cfg L with
  | none => rw [appendContent, has] at h; simp at h
  | some ext =>
    rw [appendContent, has] at h
    simp only [Option.map] at h
    have hfs' : fs' = fsWrite fs f (cfg ++ ext) := (Except.ok.injEq _ _).mp h.symm
    exact ⟨cfg ++ ext, by rw [hfs']; exact fsRead_fsWrite_self fs f _, List.prefix_append cfg ext⟩

/-- Witness for C1's amended theorem at a concrete input: file
`alpha\nbeta\n`, lines `beta` and `gamma`; the second application
changes nothing, `gamma` is appended once, `beta` stays single. -/
theorem append_cfg_idem_witness :
    fsRead [(("/etc/cfg").data, ("alpha\nbeta\n").data)] ("/etc/cfg").data
        = some (joinAll [("alpha").data, ("beta").data]) ∧
    fsRead [(("/etc/cfg").data, ("alpha\nbeta\ngamma\n").data)] ("/etc/cfg").data =
      some (joinAll ([("alpha").data, ("beta").data] ++
        ([("beta").data, ("gamma").data].filter
          (fun l => decide (l ∉ [("alpha").data, ("beta").data]))))) ∧
    lineCount (joinAll ([("alpha").data, ("beta").data] ++
        ([("beta").data, ("gamma").data].filter
          (fun l => decide (l ∉ [("alpha").data, ("beta").data]))))) ("gamma").data = 1 := by
  have h := append_cfg_idem
    [(("/etc/cfg").data, ("alpha\nbeta\n").data)] ("/etc/cfg").data
    [("beta").data, ("gamma").data] [("alpha").data, ("beta").data]
    [(("/etc/cfg").data, ("alpha\nbeta\ngamma\n").data)]
    [(("/etc/cfg").data, ("alpha\nbeta\ngamma\n").data)]
    (by decide) (by decide) (by decide) (by decide) rfl rfl
  refine ⟨by decide, h.2.1, ?_⟩
  have hc := h.2.2 ("gamma").data (by decide)
  rw [if_neg (by decide)] at hc
  exact hc

/-- Witness for C10 at a concrete input. -/
theorem append_cfg_append_only_witness :
    ∃ c', fsRead [(("/etc/cfg").data, ("alpha\ngamma\n").data)] ("/etc/cfg").data = some c' ∧
      ("alpha\n").data <+: c' := by
  have h := append_cfg_append_only [(("/etc/cfg").data, ("alpha\n").data)] ("/etc/cfg").data
    [("gamma").data] ("alpha\n").data [(("/etc/cfg").data, ("alpha\ngamma\n").data)]
    rfl rfl
  exact h

/-! ## The replacement pass of remove_cfg -/

theorem removeAux_nil (pat : List Char) (n : Nat) : removeAux pat n [] = [] := by
  cases n <;> rfl

theorem removeAux_succ_cons (pat : List Char) (n : Nat) (c : Char) (rest : List Char) :
    removeAux pat (n + 1) (c :: rest) =
      if pat.isPrefixOf (c :: rest) then removeAux pat n ((c :: rest).drop pat.length)
      else c :: removeAux pat n rest := rfl

theorem removeAux_fuel (pat : List Char) (hp : pat ≠ []) :
    ∀ (n : Nat) (s : List Char), s.length ≤ n → ∀ m, s.length ≤ m →
    removeAux pat n s = removeAux pat m s := by
  intro n
  induction n with
  | zero =>
    intro s hs m _
    have : s = [] := List.eq_nil_of_length_eq_zero (Nat.le_zero.mp hs)
    subst this
    rw [removeAux_nil, removeAux_nil]
  | succ n ih =>
    intro s hs m hm
    cases s with
    | nil => rw [removeAux_nil, removeAux_nil]
    | cons c rest =>
      have hplen : 1 ≤ pat.length := by
        cases pat with
        | nil => exact absurd rfl hp
        | cons x xs => simp
      cases m with
      | zero => simp [List.length_cons] at hm
      | succ m =>
        rw [removeAux_succ_cons, removeAux_succ_cons]
        by_cases h : pat.isPrefixOf (c :: rest)
        · rw [if_pos h, if_pos h]
          have hd : ((c :: rest).drop pat.length).length ≤ n := by
            rw [List.length_drop]
            simp only [List.length_cons] at hs ⊢
            omega
          have hd' : ((c :: rest).drop pat.length).length ≤ m := by
            rw [List.length_drop]
            simp only [List.length_cons] at hm ⊢
            omega
          exact ih _ hd m hd'
        · rw [if_neg h, if_neg h]
          have h1 : rest.length ≤ n := by simp only [List.length_cons] at hs; omega
          have h2 : rest.length ≤ m := by simp only [List.length_cons] at hm; omega
          rw [ih rest h1 m h2]

theorem removeOcc_nil (pat : List Char) : removeOcc pat [] = [] := rfl

theorem removeOcc_cons (pat : List Char) (hp : pat ≠ []) (c : Char) (rest : List Char) :
    removeOcc pat (c :: rest) =
      if pat.isPrefixOf (c :: rest) then removeOcc pat ((c :: rest).drop pat.length)
      else c :: removeOcc pat rest := by
  rw [removeOcc, List.length_cons, removeAux_succ_cons]
  by_cases h : pat.isPrefixOf (c :: rest)
  · rw [if_pos h, if_pos h, removeOcc]
    apply removeAux_fuel pat hp
    · rw [List.length_drop]
      simp only [List.length_cons]
      have hplen : 1 ≤ pat.length := by
        cases pat with
        | nil => exact absurd rfl hp
        | cons x xs => simp
      omega
    · exact Nat.le_refl _
  · rw [if_neg h, if_neg h, removeOcc]

theorem removeOcc_prefix_match (pat s : List Char) (hp : pat ≠ []) :
    removeOcc pat (pat ++ s) = removeOcc pat s := by
  cases pat with
  | nil => exact absurd rfl hp
  | cons c pat' =>
    rw [List.cons_append, removeOcc_cons _ hp c (pat' ++ s)]
    have hpre : (c :: pat').isPrefixOf (c :: (pat' ++ s)) = true := by
      rw [List.isPrefixOf_iff_prefix]
      exact ⟨s, by simp⟩
    rw [if_pos hpre]
    congr 1
    rw [show c :: (pat' ++ s) = (c :: pat') ++ s from rfl, List.drop_left]

theorem prefix_line_eq (rest : List Char) : ∀ (a l : List Char), '\n' ∉ l → '\n' ∉ a →
    (l ++ ['\n']) <+: (a ++ '\n' :: rest) → l = a := by
  intro a
  induction a with
  | nil =>
    intro l hl _ h
    cases l with
    | nil => rfl
    | cons x l' =>
      rw [List.cons_append, List.nil_append] at h
      have hx := (List.cons_prefix_cons.mp h).1
      exact absurd hx (fun hx' => hl (hx' ▸ List.mem_cons_self x l'))
  | cons b a' ih =>
    intro l hl ha h
    cases l with
    | nil =>
      rw [List.nil_append, List.cons_append] at h
      have hb := (List.cons_prefix_cons.mp h).1
      exact absurd hb.symm (fun hb' => ha (hb' ▸ List.mem_cons_self b a'))
    | cons x l' =>
      rw [List.cons_append, List.cons_append] at h
      obtain ⟨hxb, h'⟩ := List.cons_prefix_cons.mp h
      have hl' : '\n' ∉ l' := fun hm => hl (List.mem_cons_of_mem _ hm)
      have ha' : '\n' ∉ a' := fun hm => ha (List.mem_cons_of_mem _ hm)
      rw [hxb, ih l' hl' ha' h']

theorem removeOcc_skip_line (l rest : List Char) (hl : '\n' ∉ l) (hlne : l ≠ []) :
    ∀ (a : List Char), '\n' ∉ a → ¬ l <:+ a →
    removeOcc (l ++ ['\n']) (a ++ '\n' :: rest) = a ++ '\n' :: removeOcc (l ++ ['\n']) rest := by
  have hpne : l ++ ['\n'] ≠ [] := by simp
  intro a
  induction a with
  | nil =>
    intro _ _
    rw [List.nil_append, removeOcc_cons _ hpne '\n' rest]
    have hpre : (l ++ ['\n']).isPrefixOf ('\n' :: rest) = false := by
      rw [Bool.eq_false_iff]
      intro hT
      rw [List.isPrefixOf_iff_prefix] at hT
      cases l with
      | nil => exact hlne rfl
      | cons x l' =>
        rw [List.cons_append] at hT
        have hx := (List.cons_prefix_cons.mp hT).1
        exact hl (hx ▸ List.mem_cons_self x l')
    rw [hpre]
    simp only [Bool.false_eq_true, if_false]
    rfl
  | cons b a' ih =>
    intro ha hsuf
    rw [List.cons_append, removeOcc_cons _ hpne b (a' ++ '\n' :: rest)]
    have hpre : (l ++ ['\n']).isPrefixOf (b :: (a' ++ '\n' :: rest)) = false := by
      rw [Bool.eq_false_iff]
      intro hT
      rw [List.isPrefixOf_iff_prefix] at hT
      rw [show b :: (a' ++ '\n' :: rest) = (b :: a') ++ '\n' :: rest from rfl] at hT
      have hna : '\n' ∉ b :: a' := ha
      have heq := prefix_line_eq rest (b :: a') l hl hna hT
      exact hsuf (heq ▸ List.suffix_refl l)
    rw [hpre]
    simp only [Bool.false_eq_true, if_false]
    have ha' : '\n' ∉ a' := fun hm => ha (List.mem_cons_of_mem _ hm)
    have hsuf' : ¬ l <:+ a' := fun hs => hsuf (hs.trans (List.suffix_cons b a'))
    rw [ih ha' hsuf']
    rfl

theorem removeOcc_joinAll (l : List Char) (hl : '\n' ∉ l) (hlne : l ≠ []) :
    ∀ (ls : List (List Char)), (∀ a ∈ ls, '\n' ∉ a) → (∀ a ∈ ls, l <:+ a → a = l) →
    removeOcc (l ++ ['\n']) (joinAll ls) =
      joinAll (ls.filter (fun a => decide (a ≠ l))) := by
  intro ls
  induction ls with
  | nil => intro _ _; rfl
  | cons a ls ih =>
    intro hns hsuf
    have hna := hns a (List.mem_cons_self a ls)
    have hns' : ∀ x ∈ ls, '\n' ∉ x := fun x hx => hns x (List.mem_cons_of_mem _ hx)
    have hsuf' : ∀ x ∈ ls, l <:+ x → x = l :=
      fun x hx => hsuf x (List.mem_cons_of_mem _ hx)
    by_cases hae : a = l
    · subst hae
      rw [joinAll, show a ++ '\n' :: joinAll ls = (a ++ ['\n']) ++ joinAll ls by simp]
      rw [removeOcc_prefix_match _ _ (by simp), ih hns' hsuf']
      simp [List.filter_cons]
    · have hnsuf : ¬ l <:+ a := fun hs => hae (hsuf a (List.mem_cons_self a ls) hs)
      rw [joinAll, removeOcc_skip_line l (joinAll ls) hl hlne a hna hnsuf, ih hns' hsuf']
      rw [List.filter_cons]
      simp only [hae, ne_eq, not_false_eq_true, decide_eq_true_eq, if_true]
      rfl

theorem removeAll_joinAll : ∀ (L ls : List (List Char)),
    (∀ l ∈ L, '\n' ∉ l ∧ l ≠ []) → (∀ a ∈ ls, '\n' ∉ a) →
    (∀ l ∈ L, ∀ a ∈ ls, l <:+ a → a = l) →
    removeAll (joinAll ls) L = joinAll (ls.filter (fun a => decide (a ∉ L))) := by
  intro L
  induction L with
  | nil =>
    intro ls _ _ _
    show joinAll ls = _
    congr 1
    refine (List.filter_eq_self.mpr ?_).symm
    intro a _
    simp
  | cons l L ih =>
    intro ls hL hns hsuf
    obtain ⟨hlnl, hlne⟩ := hL l (List.mem_cons_self l L)
    have hstep : removeAll (joinAll ls) (l :: L) =
        removeAll (removeOcc (l ++ ['\n']) (joinAll ls)) L := rfl
    rw [hstep,
      removeOcc_joinAll l hlnl hlne ls hns
        (fun a ha hs => hsuf l (List.mem_cons_self l L) a ha hs),
      ih (ls.filter (fun a => decide (a ≠ l)))
        (fun x hx => hL x (List.mem_cons_of_mem _ hx))
        (fun a ha => hns a (List.mem_of_mem_filter ha))
        (fun x hx a ha hs => hsuf x (List.mem_cons_of_mem _ hx) a (List.mem_of_mem_filter ha) hs),
      List.filter_filter]
    congr 1
    apply List.filter_congr
    intro a _
    by_cases h1 : a = l <;> by_cases h2 : a ∈ L <;> simp [h1, h2]

theorem bACKUP_ne_nil : (".BACKUP").data ≠ [] := by decide

theorem eDIT_ne_bACKUP : (".EDIT").data ≠ (".BACKUP").data := by decide

/-- With a faithful write channel, `remove_cfg` reads the file, backs it
up, writes the filtered content, passes its own verification, removes
the backup and raises nothing. -/
theorem remove_cfg_honest (fs : FS) (f : Path) (L : List (List Char)) (cfg0 : List Char)
    (h : fsRead fs f = some cfg0) :
    ISCSI.remove_cfg fs f L id =
      .ok ⟨fsErase (fsWrite (fsWrite fs (f ++ (".BACKUP").data) cfg0) f (removeAll cfg0 L))
             (f ++ (".BACKUP").data), none⟩ := by
  simp only [ISCSI.remove_cfg, h, id_eq]
  rw [fsRead_fsWrite_self]
  simp

/-- Claim C2 (confirmed): in every `remove_cfg` edit, when the re-read
content equals the expected filtered content the backup is deleted and
the call succeeds raising nothing; when it differs byte-for-byte the
original content is restored exactly, a forensic copy of the failed
write is retained at the distinguishable path `fname ++ ".EDIT"`, and
the raised error names that path. -/
theorem remove_cfg_verify (fs : FS) (f : Path) (L : List (List Char))
    (writeF : List Char → List Char) (cfg0 : List Char)
    (hread : fsRead fs f = some cfg0) :
    (writeF (removeAll cfg0 L) = removeAll cfg0 L →
      ∃ r, ISCSI.remove_cfg fs f L writeF = .ok r ∧ r.err = none ∧
        fsRead r.fs f = some (removeAll cfg0 L) ∧
        fsRead r.fs (f ++ (".BACKUP").data) = none) ∧
    (writeF (removeAll cfg0 L) ≠ removeAll cfg0 L →
      ∃ r, ISCSI.remove_cfg fs f L writeF = .ok r ∧
        r.err = some (f ++ (".EDIT").data) ∧
        fsRead r.fs f = some cfg0 ∧
        fsRead r.fs (f ++ (".EDIT").data) = some (writeF (removeAll cfg0 L)) ∧
        f ++ (".EDIT").data ≠ f) := by
  have hbak_ne : f ++ (".BACKUP").data ≠ f := append_ne_of_ne_nil f _ bACKUP_ne_nil
  have hed_ne : f ++ (".EDIT").data ≠ f := append_ne_of_ne_nil f _ (by decide)
  have hbe : f ++ (".EDIT").data ≠ f ++ (".BACKUP").data :=
    append_ne_append_of_ne f _ _ eDIT_ne_bACKUP
  constructor
  · intro hw
    refine ⟨⟨fsErase (fsWrite (fsWrite fs (f ++ (".BACKUP").data) cfg0) f
        (writeF (removeAll cfg0 L))) (f ++ (".BACKUP").data), none⟩, ?_, rfl, ?_, ?_⟩
    · simp only [ISCSI.remove_cfg, hread]
      rw [fsRead_fsWrite_self, hw]
      simp
    · rw [fsRead_fsErase_ne _ _ _ hbak_ne, fsRead_fsWrite_self, hw]
    · exact fsRead_fsErase_self _ _
  · intro hw
    have hw' : ¬ (removeAll cfg0 L = writeF (removeAll cfg0 L)) := fun he => hw he.symm
    refine ⟨⟨fsErase (fsWrite (fsWrite (fsWrite (fsWrite fs (f ++ (".BACKUP").data) cfg0) f
        (writeF (removeAll cfg0 L))) (f ++ (".EDIT").data) (writeF (removeAll cfg0 L))) f cfg0)
        (f ++ (".BACKUP").data), some (f ++ (".EDIT").data)⟩, ?_, rfl, ?_, ?_, hed_ne⟩
    · have hread_bak :
          fsRead (fsWrite (fsWrite (fsWrite fs (f ++ (".BACKUP").data) cfg0) f
            (writeF (removeAll cfg0 L))) (f ++ (".EDIT").data) (writeF (removeAll cfg0 L)))
            (f ++ (".BACKUP").data) = some cfg0 := by
        rw [fsRead_fsWrite_ne _ _ _ _ hbe, fsRead_fsWrite_ne _ _ _ _
          (fun hfb => hbak_ne hfb.symm), fsRead_fsWrite_self]
      simp only [ISCSI.remove_cfg, hread]
      rw [fsRead_fsWrite_self]
      simp [hw', hread_bak]
    · rw [fsRead_fsErase_ne _ _ _ hbak_ne, fsRead_fsWrite_self]
    · rw [fsRead_fsErase_ne _ _ _ hbe.symm,
        fsRead_fsWrite_ne _ _ _ _ (fun hfe => hed_ne hfe.symm), fsRead_fsWrite_self]

/-- Witness for C2 at a concrete input: file `a\nb\n`, target line `a`,
exercising the corrupted-write branch (channel writes `X`). -/
theorem remove_cfg_verify_witness :
    (fun _ => ("X").data) (removeAll (("a\nb\n").data) [("a").data])
        ≠ removeAll (("a\nb\n").data) [("a").data] ∧
    ∃ r, ISCSI.remove_cfg [(("f").data, ("a\nb\n").data)] ("f").data [("a").data]
        (fun _ => ("X").data) = .ok r ∧
      r.err = some (("f").data ++ (".EDIT").data) ∧
      fsRead r.fs ("f").data = some (("a\nb\n").data) ∧
      fsRead r.fs (("f").data ++ (".EDIT").data) =
        some ((fun _ => ("X").data) (removeAll (("a\nb\n").data) [("a").data])) ∧
      ("f").data ++ (".EDIT").data ≠ ("f").data := by
  have h := remove_cfg_verify [(("f").data, ("a\nb\n").data)] ("f").data [("a").data]
    (fun _ => ("X").data) ("a\nb\n").data rfl
  exact ⟨by decide, h.2 (by decide)⟩

/-- Claim C3, counterexample.  `remove_cfg` removes every occurrence of
the substring `line ++ '\n'`, not only full-line occurrences: on the
file `aab\nb\n` (full lines `aab` and `b`) with target line `ab`, the
spec's full-line filter leaves the file unchanged, but the code turns it
into `ab\n`, altering a line that did not match. -/
theorem remove_cfg_not_full_line_cex :
    ISCSI.remove_cfg [(("/etc/cfg").data, ("aab\nb\n").data)] ("/etc/cfg").data
        [("ab").data] id
      = .ok ⟨[(("/etc/cfg").data, ("ab\n").data)], none⟩ ∧
    splitNl (("aab\nb\n").data) = [("aab").data, ("b").data, []] ∧
    specLineRemove [("aab").data, ("b").data] [("ab").data] = ("aab\nb\n").data ∧
    ("ab\n").data ≠ ("aab\nb\n").data :=
  ⟨rfl, by decide, by decide, by decide⟩

/-- Claim C3 (amended): when no target line contains a newline and every
file line that merely ends with a target line is in fact equal to it
(so every occurrence of `line ++ '\n'` starts at a line boundary),
`remove_cfg` filters out of the file exactly the full lines equal to a
target line, and no other content is altered; in general the code
removes every substring occurrence of `line ++ '\n'`, not only full
lines. -/
theorem remove_cfg_filters (fs : FS) (f : Path) (L ls : List (List Char)) (r : RemoveOut)
    (hread : fsRead fs f = some (joinAll ls))
    (hls : ∀ a ∈ ls, '\n' ∉ a)
    (hL : ∀ l ∈ L, '\n' ∉ l ∧ l ≠ [])
    (hsuf : ∀ l ∈ L, ∀ a ∈ ls, l <:+ a → a = l)
    (h : ISCSI.remove_cfg fs f L id = .ok r) :
    r.err = none ∧ fsRead r.fs f = some (specLineRemove ls L) := by
  rw [remove_cfg_honest fs f L (joinAll ls) hread] at h
  have hr : r = ⟨fsErase (fsWrite (fsWrite fs (f ++ (".BACKUP").data) (joinAll ls)) f
      (removeAll (joinAll ls) L)) (f ++ (".BACKUP").data), none⟩ :=
    ((Except.ok.injEq _ _).mp h).symm
  subst hr
  refine ⟨rfl, ?_⟩
  rw [fsRead_fsErase_ne _ _ _ (append_ne_of_ne_nil f _ bACKUP_ne_nil), fsRead_fsWrite_self,
    removeAll_joinAll L ls hL hls hsuf]
  rfl

/-! ## The boot-persistence step of Target.deploy -/

theorem restart_plain : ∀ c ∈ restartLine, plainChar c = true := by decide

theorem restart_compile : compileLine restartLine = some (litRE restartLine) :=
  compileLine_plain _ restart_plain

theorem restart_nl : '\n' ∉ restartLine := by decide

theorem restart_ne_nil : restartLine ≠ [] := by decide

theorem restart_bs : '\\' ∉ restartLine := by decide

/-- The content effect of the boot-persistence append (lines 304-308):
on a file whose lines contain no `rciscsitarget restart` line, the
re-bind line is appended unless some line already matches its search
pattern, and the restart line is appended. -/
theorem appendContent_boot (zs : List (List Char)) (loseL : List Char) (rL : RE)
    (hc : compileLine loseL = some rL)
    (hbs : '\\' ∉ loseL)
    (hzs : ∀ a ∈ zs, '\n' ∉ a)
    (hrz : restartLine ∉ zs)
    (hmt : reMatch rL [] = false) :
    appendContent (joinAll zs) [loseL, restartLine] =
      some (joinAll (zs ++ (if zs.any (fun a => reMatch rL a)
        then [restartLine] else [loseL, restartLine]))) := by
  have hsearch_r : reSearchLines (litRE restartLine) (joinAll zs) = false := by
    rw [Bool.eq_false_iff]
    intro hT
    rw [reSearchLines_lit, splitNl_joinAll zs hzs] at hT
    rcases List.mem_append.mp hT with h1 | h2
    · exact hrz h1
    · exact restart_ne_nil (by simpa using h2)
  have hsearch_l : reSearchLines rL (joinAll zs) = zs.any (fun a => reMatch rL a) := by
    rw [reSearchLines, splitNl_joinAll zs hzs, List.any_append]
    simp [hmt]
  rw [appendContent]
  simp only [appendSelect, hc, restart_compile, hsearch_r, hsearch_l,
    Bool.false_eq_true, if_false]
  rw [echoBytes_plain loseL hbs, echoBytes_plain restartLine restart_bs]
  cases hany : zs.any (fun a => reMatch rL a) with
  | true =>
    simp only [if_true, Option.map]
    rw [joinAll_append]
    simp [joinAll]
  | false =>
    simp only [Bool.false_eq_true, if_false, Option.map]
    rw [joinAll_append]
    simp [joinAll]

/-- One run of the boot-persistence step over a well-formed script. -/
theorem bootPersist_run (dev : List Char) (pO : Option Path) (rL : RE) (w : World)
    (zs : List (List Char))
    (hc : compileLine (losetupLine dev pO) = some rL)
    (hbs : '\\' ∉ losetupLine dev pO)
    (hmt : reMatch rL [] = false)
    (hread : fsRead w.fs bootLocalPath = some (joinAll zs))
    (hzs_nl : ∀ a ∈ zs, '\n' ∉ a)
    (hzs_suf : ∀ a ∈ zs, restartLine <:+ a → a = restartLine) :
    ∃ fs', Target.bootPersist dev pO w = .ok { w with fs := fs' } ∧
      fsRead fs' bootLocalPath =
        some (joinAll ((zs.filter (fun a => decide (a ≠ restartLine))) ++
          (if (zs.filter (fun a => decide (a ≠ restartLine))).any (fun a => reMatch rL a)
            then [restartLine] else [losetupLine dev pO, restartLine]))) := by
  have hboot_ne : bootLocalPath ++ (".BACKUP").data ≠ bootLocalPath :=
    append_ne_of_ne_nil _ _ bACKUP_ne_nil
  have hrm := remove_cfg_honest w.fs bootLocalPath [restartLine] (joinAll zs) hread
  have hfilter : removeAll (joinAll zs) [restartLine] =
      joinAll (zs.filter (fun a => decide (a ≠ restartLine))) := by
    rw [removeAll_joinAll [restartLine] zs
      (by
        intro l hl
        have : l = restartLine := by simpa using hl
        subst this
        exact ⟨restart_nl, restart_ne_nil⟩)
      hzs_nl
      (by
        intro l hl a ha
        have : l = restartLine := by simpa using hl
        subst this
        exact hzs_suf a ha)]
    congr 1
    apply List.filter_congr
    intro a _
    simp
  have hgs_nl : ∀ a ∈ zs.filter (fun a => decide (a ≠ restartLine)), '\n' ∉ a :=
    fun a ha => hzs_nl a (List.mem_of_mem_filter ha)
  have hrz : restartLine ∉ zs.filter (fun a => decide (a ≠ restartLine)) := by
    intro hcon
    have := (List.mem_filter.mp hcon).2
    simp at this
  have happend := appendContent_boot (zs.filter (fun a => decide (a ≠ restartLine)))
    (losetupLine dev pO) rL hc hbs hgs_nl hrz hmt
  have hread₂ : fsRead (fsErase (fsWrite (fsWrite w.fs (bootLocalPath ++ (".BACKUP").data)
      (joinAll zs)) bootLocalPath (removeAll (joinAll zs) [restartLine]))
      (bootLocalPath ++ (".BACKUP").data)) bootLocalPath =
      some (joinAll (zs.filter (fun a => decide (a ≠ restartLine)))) := by
    rw [fsRead_fsErase_ne _ _ _ hboot_ne, fsRead_fsWrite_self, hfilter]
  have hac := append_cfg_ok _ bootLocalPath [losetupLine dev pO, restartLine] _ _ hread₂ happend
  refine ⟨fsWrite (fsErase (fsWrite (fsWrite w.fs (bootLocalPath ++ (".BACKUP").data)
      (joinAll zs)) bootLocalPath (removeAll (joinAll zs) [restartLine]))
      (bootLocalPath ++ (".BACKUP").data)) bootLocalPath
      (joinAll ((zs.filter (fun a => decide (a ≠ restartLine))) ++
        (if (zs.filter (fun a => decide (a ≠ restartLine))).any (fun a => reMatch rL a)
          then [restartLine] else [losetupLine dev pO, restartLine]))), ?_, ?_⟩
  · simp only [Target.bootPersist, bootLines, hrm, hac]
  · rw [fsRead_fsWrite_self]

/-- After the first boot-persistence step the script content is a fixed
point: every further step removes the restart line, finds the re-bind
line already present, and appends the restart line back. -/
theorem bootPersistN_steady (dev : List Char) (pO : Option Path) (rL : RE)
    (gs0 : List (List Char))
    (hc : compileLine (losetupLine dev pO) = some rL)
    (hself : reMatch rL (losetupLine dev pO) = true)
    (hmt : reMatch rL [] = false)
    (hnr : reMatch rL restartLine = false)
    (hbs : '\\' ∉ losetupLine dev pO)
    (hnl : '\n' ∉ losetupLine dev pO)
    (hrsuf : ¬ restartLine <:+ losetupLine dev pO)
    (hgs_nl : ∀ a ∈ gs0, '\n' ∉ a)
    (hgs_suf : ∀ a ∈ gs0, restartLine <:+ a → a = restartLine)
    (hgs_nr : restartLine ∉ gs0) :
    ∀ (m : Nat) (w : World),
      fsRead w.fs bootLocalPath = some (joinAll (gs0 ++ [losetupLine dev pO, restartLine])) →
      ∃ w', Target.bootPersistN dev pO m w = .ok w' ∧
        fsRead w'.fs bootLocalPath =
          some (joinAll (gs0 ++ [losetupLine dev pO, restartLine])) := by
  have hlr : losetupLine dev pO ≠ restartLine := by
    intro he
    rw [he] at hself
    rw [hself] at hnr
    cases hnr
  intro m
  induction m with
  | zero => intro w hread; exact ⟨w, rfl, hread⟩
  | succ m ih =>
    intro w hread
    have hzs_nl : ∀ a ∈ gs0 ++ [losetupLine dev pO, restartLine], '\n' ∉ a := by
      intro a ha
      rcases List.mem_append.mp ha with h1 | h2
      · exact hgs_nl a h1
      · rcases List.mem_cons.mp h2 with h3 | h4
        · exact h3 ▸ hnl
        · have : a = restartLine := by simpa using h4
          exact this ▸ restart_nl
    have hzs_suf : ∀ a ∈ gs0 ++ [losetupLine dev pO, restartLine],
        restartLine <:+ a → a = restartLine := by
      intro a ha hs
      rcases List.mem_append.mp ha with h1 | h2
      · exact hgs_suf a h1 hs
      · rcases List.mem_cons.mp h2 with h3 | h4
        · exact absurd (h3 ▸ hs) hrsuf
        · simpa using h4
    obtain ⟨fs', hstep, hread'⟩ := bootPersist_run dev pO rL w _ hc hbs hmt hread hzs_nl hzs_suf
    have hf1 : gs0.filter (fun a => decide (a ≠ restartLine)) = gs0 := by
      apply List.filter_eq_self.mpr
      intro a ha
      simp only [decide_eq_true_eq]
      exact fun h => hgs_nr (h ▸ ha)
    have hf2 : ([losetupLine dev pO, restartLine] : List (List Char)).filter
        (fun a => decide (a ≠ restartLine)) = [losetupLine dev pO] := by
      simp [List.filter_cons, hlr]
    have hfe : (gs0 ++ [losetupLine dev pO, restartLine]).filter
        (fun a => decide (a ≠ restartLine)) = gs0 ++ [losetupLine dev pO] := by
      rw [List.filter_append, hf1, hf2]
    have hany : (gs0 ++ [losetupLine dev pO]).any (fun a => reMatch rL a) = true := by
      rw [List.any_append]
      simp [hself]
    rw [hfe] at hread'
    rw [if_pos hany] at hread'
    have hassoc : (gs0 ++ [losetupLine dev pO]) ++ [restartLine] =
        gs0 ++ [losetupLine dev pO, restartLine] := by
      simp
    rw [hassoc] at hread'
    obtain ⟨w', hN, hr⟩ := ih { w with fs := fs' } hread'
    refine ⟨w', ?_, hr⟩
    show (Target.bootPersist dev pO w).then (Target.bootPersistN dev pO m) = .ok w'
    rw [hstep]
    exact hN

/-- Claim C4 (confirmed): starting from a well-formed boot-persistence
script — newline-terminated lines, any line ending in the restart
command being exactly the restart line, and no line matching the re-bind
line's search pattern — after any number n ≥ 1 of boot-persistence steps
(one per `Target.deploy` invocation for the same target) the script
contains exactly one `rciscsitarget restart` line and exactly one
`losetup <device> <path>` line: each step removes the existing restart
line and appends the re-bind line (if absent) followed by the restart
line. -/
theorem boot_persistence_exactly_once (dev : List Char) (pO : Option Path) (rL : RE)
    (ls : List (List Char)) (w : World) (n : Nat)
    (hn : 1 ≤ n)
    (hc : compileLine (losetupLine dev pO) = some rL)
    (hself : reMatch rL (losetupLine dev pO) = true)
    (hmt : reMatch rL [] = false)
    (hnr : reMatch rL restartLine = false)
    (hbs : '\\' ∉ losetupLine dev pO)
    (hnl : '\n' ∉ losetupLine dev pO)
    (hrsuf : ¬ restartLine <:+ losetupLine dev pO)
    (hread : fsRead w.fs bootLocalPath = some (joinAll ls))
    (hls_nl : ∀ a ∈ ls, '\n' ∉ a)
    (hls_lose : ∀ a ∈ ls, reMatch rL a = false)
    (hls_suf : ∀ a ∈ ls, restartLine <:+ a → a = restartLine) :
    ∃ w' c', Target.bootPersistN dev pO n w = .ok w' ∧
      fsRead w'.fs bootLocalPath = some c' ∧
      lineCount c' restartLine = 1 ∧
      lineCount c' (losetupLine dev pO) = 1 := by
  have hlr : losetupLine dev pO ≠ restartLine := by
    intro he
    rw [he] at hself
    rw [hself] at hnr
    cases hnr
  have hlnil : losetupLine dev pO ≠ [] := by
    intro he
    rw [he] at hself
    rw [hself] at hmt
    cases hmt
  cases n with
  | zero => omega
  | succ m =>
    obtain ⟨fs', hstep, hread'⟩ :=
      bootPersist_run dev pO rL w ls hc hbs hmt hread hls_nl hls_suf
    set gs0 := ls.filter (fun a => decide (a ≠ restartLine)) with hgs0
    have hgs_nl : ∀ a ∈ gs0, '\n' ∉ a := fun a ha => hls_nl a (List.mem_of_mem_filter ha)
    have hgs_suf : ∀ a ∈ gs0, restartLine <:+ a → a = restartLine :=
      fun a ha => hls_suf a (List.mem_of_mem_filter ha)
    have hgs_nr : restartLine ∉ gs0 := by
      intro hcon
      have := (List.mem_filter.mp hcon).2
      simp at this
    have hgs_lose : ∀ a ∈ gs0, reMatch rL a = false :=
      fun a ha => hls_lose a (List.mem_of_mem_filter ha)
    have hany : ¬ (gs0.any (fun a => reMatch rL a) = true) := by
      intro hT
      obtain ⟨a, ha, hm⟩ := List.any_eq_true.mp hT
      rw [hgs_lose a ha] at hm
      cases hm
    rw [if_neg hany] at hread'
    obtain ⟨w', hN, hr⟩ := bootPersistN_steady dev pO rL gs0 hc hself hmt hnr hbs hnl hrsuf
      hgs_nl hgs_suf hgs_nr m { w with fs := fs' } hread'
    have hrun : Target.bootPersistN dev pO (m + 1) w = .ok w' := by
      show (Target.bootPersist dev pO w).then (Target.bootPersistN dev pO m) = .ok w'
      rw [hstep]
      exact hN
    have hlines_nl : ∀ a ∈ gs0 ++ [losetupLine dev pO, restartLine], '\n' ∉ a := by
      intro a ha
      rcases List.mem_append.mp ha with h1 | h2
      · exact hgs_nl a h1
      · rcases List.mem_cons.mp h2 with h3 | h4
        · exact h3 ▸ hnl
        · have : a = restartLine := by simpa using h4
          exact this ▸ restart_nl
    have hcount_r : lineCount (joinAll (gs0 ++ [losetupLine dev pO, restartLine]))
        restartLine = 1 := by
      rw [lineCount_joinAll _ _ hlines_nl restart_ne_nil, List.count_append]
      have h0 : gs0.count restartLine = 0 := List.count_eq_zero.mpr hgs_nr
      have hrl : ¬ restartLine = losetupLine dev pO := fun h => hlr h.symm
      have h1 : ([losetupLine dev pO, restartLine] : List (List Char)).count restartLine = 1 := by
        rw [List.count_cons, List.count_cons, List.count_nil]
        simp [hlr, hrl]
      rw [h0, h1]
    have hcount_l : lineCount (joinAll (gs0 ++ [losetupLine dev pO, restartLine]))
        (losetupLine dev pO) = 1 := by
      rw [lineCount_joinAll _ _ hlines_nl hlnil, List.count_append]
      have h0 : gs0.count (losetupLine dev pO) = 0 := by
        rw [List.count_eq_zero]
        intro hcon
        rw [hgs_lose _ hcon] at hself
        cases hself
      have hrl : ¬ restartLine = losetupLine dev pO := fun h => hlr h.symm
      have h1 : ([losetupLine dev pO, restartLine] : List (List Char)).count
          (losetupLine dev pO) = 1 := by
        rw [List.count_cons, List.count_cons, List.count_nil]
        simp [hlr, hrl]
      rw [h0, h1]
    exact ⟨w', joinAll (gs0 ++ [losetupLine dev pO, restartLine]), hrun, hr, hcount_r, hcount_l⟩

/-- Witness for C4 at a concrete input: the default target
(`/dev/loop0`, `/tmp/id01-iscsi.loop`), a boot script holding one
comment line, and two deploy iterations. -/
theorem boot_persistence_exactly_once_witness :
    ∃ w' c', Target.bootPersistN ("/dev/loop0").data (some ("/tmp/id01-iscsi.loop").data) 2
        { fs := [(bootLocalPath, ("# init\n").data)], loops := [] } = .ok w' ∧
      fsRead w'.fs bootLocalPath = some c' ∧
      lineCount c' restartLine = 1 ∧
      lineCount c'
        (losetupLine ("/dev/loop0").data (some ("/tmp/id01-iscsi.loop").data)) = 1 :=
  boot_persistence_exactly_once ("/dev/loop0").data (some ("/tmp/id01-iscsi.loop").data)
    ((compileLine (losetupLine ("/dev/loop0").data
      (some ("/tmp/id01-iscsi.loop").data))).getD RE.fail)
    [("# init").data] { fs := [(bootLocalPath, ("# init\n").data)], loops := [] } 2
    (by decide) (by decide) (by decide) (by decide) (by decide) (by decide) (by decide)
    (by decide) (by decide) (by decide) (by decide) (by decide)

/-- Witness for C3's amended theorem at a concrete input: file
`keep\ndrop\n`, target `drop`; exactly the `drop` line goes away. -/
theorem remove_cfg_filters_witness :
    ISCSI.remove_cfg [(("f").data, ("keep\ndrop\n").data)] ("f").data [("drop").data] id
        = .ok ⟨[(("f").data, ("keep\n").data)], none⟩ ∧
    fsRead [(("f").data, ("keep\n").data)] ("f").data =
      some (specLineRemove [("keep").data, ("drop").data] [("drop").data]) := by
  have h := remove_cfg_filters [(("f").data, ("keep\ndrop\n").data)] ("f").data
    [("drop").data] [("keep").data, ("drop").data]
    ⟨[(("f").data, ("keep\n").data)], none⟩
    (by decide) (by decide) (by decide) (by decide) rfl
  exact ⟨rfl, h.2⟩

/-! ## Initiator discovery -/

/-- The discovery loop against well-formed segments agrees with
first-match selection over the parsed `(portal, name)` pairs. -/
theorem discoverGo_wellformed (iqn_id discovered : List Char) :
    ∀ segs : List (List Char), (∀ seg ∈ segs, (pySplitWs seg).length = 2) →
    discoverGo iqn_id discovered segs =
      (match (segs.filterMap (fun seg =>
          match pySplitWs seg with
          | [_, nm] => if hasSub nm iqn_id then some nm else none
          | _ => none)).head? with
        | some nm => .ok nm
        | none => .error (.targetNotFound iqn_id discovered)) := by
  intro segs
  induction segs with
  | nil => intro _; rfl
  | cons seg rest ih =>
    intro h2
    have hseg := h2 seg (List.mem_cons_self seg rest)
    have hrest : ∀ s ∈ rest, (pySplitWs s).length = 2 :=
      fun s hs => h2 s (List.mem_cons_of_mem _ hs)
    cases hf : pySplitWs seg with
    | nil => rw [hf] at hseg; cases hseg
    | cons a t =>
      cases t with
      | nil => rw [hf] at hseg; simp at hseg
      | cons b t2 =>
        cases t2 with
        | cons x t3 => rw [hf] at hseg; simp at hseg
        | nil =>
          rw [discoverGo, hf, List.filterMap_cons, hf]
          by_cases hsub : hasSub b iqn_id = true
          · simp only [hsub, if_true, List.head?]
          · simp only [Bool.not_eq_true] at hsub
            simp only [hsub, Bool.false_eq_true, if_false]
            exact ih hrest

/-- Claim C5, counterexample.  On realistic discovery output ending in a
newline, the split produces a trailing empty segment; when no entry
matches, unpacking that segment into two fields raises Python's
`ValueError` instead of the claimed `TargetNotFoundError`. -/
theorem initiator_discover_valueerror_cex :
    Initiator.discover ("id02").data
        ("10.0.0.1:3260 iqn.2015-01.qa.cloud.suse.de:id01\n").data
      = .error .valueError ∧
    InitErr.valueError ≠
      InitErr.targetNotFound ("id02").data
        ("10.0.0.1:3260 iqn.2015-01.qa.cloud.suse.de:id01\n").data :=
  ⟨rfl, by decide⟩

/-- Claim C5 (amended): when every newline-separated segment of the
discovery output consists of exactly two whitespace-separated fields (in
particular the output has no trailing newline), `Initiator.deploy`
selects the second field of the first segment whose name contains the
requested id and stores it as the resolved name; if no segment matches
it raises `TargetNotFoundError` carrying the id and the raw output, and
the name stays unset.  On output with a malformed segment (such as the
empty segment after a trailing newline) reached before any match, the
loop instead dies with a `ValueError`. -/
theorem initiator_discover_selects (iqn_id discovered th : List Char)
    (h2f : ∀ seg ∈ splitNl discovered, (pySplitWs seg).length = 2) :
    Initiator.discover iqn_id discovered =
      (match ((splitNl discovered).filterMap (fun seg =>
          match pySplitWs seg with
          | [_, nm] => if hasSub nm iqn_id then some nm else none
          | _ => none)).head? with
        | some nm => .ok nm
        | none => .error (.targetNotFound iqn_id discovered)) ∧
    (Initiator.discover iqn_id discovered = .error (.targetNotFound iqn_id discovered) →
      Initiator.deployDiscovery (Initiator.init th iqn_id) discovered =
        (Initiator.init th iqn_id, some (.targetNotFound iqn_id discovered))) ∧
    ∀ nm, Initiator.discover iqn_id discovered = .ok nm →
      Initiator.deployDiscovery (Initiator.init th iqn_id) discovered =
        ({ target_host := th, iqn_id := iqn_id, name := some nm }, none) := by
  refine ⟨discoverGo_wellformed iqn_id discovered (splitNl discovered) h2f, ?_, ?_⟩
  · intro herr
    simp only [Initiator.deployDiscovery, Initiator.init, herr]
  · intro nm hok
    simp only [Initiator.deployDiscovery, Initiator.init, hok]

/-- Witness for C5's amended theorem: the spec's two-entry discovery
output; requesting `id02` selects exactly the second entry and stores
it. -/
theorem initiator_discover_selects_witness :
    Initiator.discover ("id02").data
        ("10.0.0.1:3260 iqn.2015-01.qa.cloud.suse.de:id01\n10.0.0.1:3260 iqn.2015-01.qa.cloud.suse.de:id02").data
      = .ok (("iqn.2015-01.qa.cloud.suse.de:id02").data) ∧
    Initiator.deployDiscovery
        (Initiator.init ("10.0.0.1").data ("id02").data)
        ("10.0.0.1:3260 iqn.2015-01.qa.cloud.suse.de:id01\n10.0.0.1:3260 iqn.2015-01.qa.cloud.suse.de:id02").data
      = ({ target_host := ("10.0.0.1").data,
           iqn_id := ("id02").data,
           name := some (("iqn.2015-01.qa.cloud.suse.de:id02").data) }, none) := by
  have h := initiator_discover_selects ("id02").data
    ("10.0.0.1:3260 iqn.2015-01.qa.cloud.suse.de:id01\n10.0.0.1:3260 iqn.2015-01.qa.cloud.suse.de:id02").data
    ("10.0.0.1").data (by decide)
  refine ⟨rfl, h.2.2 (("iqn.2015-01.qa.cloud.suse.de:id02").data) rfl⟩

/-! ## Target deployment: export verification and loop creation -/

/-- Claim C6 (confirmed): whenever every step of `Target.deploy` before
the final check succeeds and the live export table read at the end does
not contain the constructed IQN string, `deploy` raises
`DeploymentVerificationError`. -/
theorem target_deploy_verification (device : List Char) (pO : Option Path)
    (iqn_id : List Char) (size : Nat) (w w1 : World) (vol : List Char)
    (hsteps : Target.deploySteps device pO iqn_id size w = .ok w1)
    (hvol : fsRead w1.fs volumePath = some vol)
    (hmiss : hasSub vol (targetIQN iqn_id) = false) :
    Target.deploy device pO iqn_id size w = .err .deployVerification w1 := by
  rw [Target.deploy, hsteps]
  simp only [Outcome.then, hvol]
  rw [if_neg (by rw [hmiss]; exact Bool.false_ne_true)]

/-- Witness for C6: a shared block device (`/dev/sdc`), empty config
files, and an export table lacking the IQN; all steps up to the check
succeed, and deploy fails with the verification error. -/
theorem target_deploy_verification_witness :
    Target.deploy ("/dev/sdc").data none ("id01").data 1
        { fs := [(ietdConfPath, []), (bootLocalPath, []),
                 (volumePath, ("nothing exported\n").data)], loops := [] }
      = .err .deployVerification
        { fs := [(ietdConfPath,
            ("IncomingUser user passwd\nTarget iqn.2015-01.qa.cloud.suse.de:id01\n\"\tLun 0 Path=/dev/sdc\"\n").data),
            (bootLocalPath, ("losetup /dev/sdc None\nrciscsitarget restart\n").data),
            (volumePath, ("nothing exported\n").data)], loops := [] } := by
  apply target_deploy_verification
  · rfl
  · rfl
  · decide

/-- Claim C7 (confirmed): `create_loop` on a loop path that is already
bound raises `AlreadyBoundError` before performing any mutation: the
returned world is the input world, so the existing binding and its
backing file are untouched. -/
theorem create_loop_already_bound (loop path : Path) (size : Nat) (w : World)
    (pr : Path × Path) (h : Target.find_loop w.loops loop = some pr) :
    Target.create_loop loop path size w = .err .alreadyBound w := by
  rw [Target.create_loop, h]

/-- Witness for C7: `/dev/loop0` already bound to `/tmp/old.img`. -/
theorem create_loop_already_bound_witness :
    Target.create_loop ("/dev/loop0").data ("/tmp/new.img").data 1
        { fs := [(("/tmp/old.img").data, ("IMG").data)],
          loops := [(("/dev/loop0").data, ("/tmp/old.img").data)] }
      = .err .alreadyBound
        { fs := [(("/tmp/old.img").data, ("IMG").data)],
          loops := [(("/dev/loop0").data, ("/tmp/old.img").data)] } :=
  create_loop_already_bound ("/dev/loop0").data ("/tmp/new.img").data 1 _
    ((("/dev/loop0").data, ("/tmp/old.img").data)) rfl

/-! ## The SSH trust-install exchange -/

/-- Claim C8 (code bug): the watcher does inject the password exactly
once upon recognising the prompt suffix, but a successful exchange never
sets the `_copy_id` flag — `SSH.__init__` sets it to `False` and no code
path ever sets it to `True` — so the skip is due only to the cached
connection handle: once `clean_key` clears `_connect`, the next remote
operation runs the whole trust-install exchange again, contradicting the
claim that every later operation skips it. -/
theorem ssh_copy_id_flag_never_set :
    (interactRun ("Password: ").data).2 = 1 ∧
    (SSH.ssh_copy_id SSH.initState).copy_id = false ∧
    (SSH.remoteOp SSH.initState).exchanges = 1 ∧
    (SSH.remoteOp (SSH.clean_key (SSH.remoteOp SSH.initState))).exchanges = 2 := by
  refine ⟨?_, rfl, rfl, rfl⟩
  decide

/-! ## Initiator logout -/

/-- Claim C9, counterexample.  `logout()` on a fresh initiator (no
successful deploy, name unset) does not raise `NotLoggedInError`: the
source has no such check and simply issues the logout command with the
unset name. -/
theorem initiator_logout_no_guard_cex :
    Initiator.logout (Initiator.init ("10.0.0.1").data ("id01").data)
      = .ok ⟨none⟩ ∧
    Initiator.logout (Initiator.init ("10.0.0.1").data ("id01").data)
      ≠ .error InitErr.notLoggedIn :=
  ⟨rfl, fun h => Except.noConfusion h⟩

/-- Claim C9 (amended): `logout()` unconditionally issues the logout
command for whatever the resolved name holds — with no prior successful
deploy the name is still unset and is passed as the `-n` argument
(rendered `None` by Python), with no `NotLoggedInError` raised anywhere;
after a successful deploy it issues logout for the previously resolved
name. -/
theorem initiator_logout_issues_name (ini : Initiator) (disc : List Char)
    (ini' : Initiator)
    (hdep : Initiator.deployDiscovery ini disc = (ini', none)) :
    Initiator.logout ini' = .ok ⟨ini'.name⟩ ∧
    (∃ nm, Initiator.discover ini.iqn_id disc = .ok nm ∧ ini'.name = some nm) ∧
    ∀ ini₂ : Initiator, Initiator.logout ini₂ = .ok ⟨ini₂.name⟩ := by
  refine ⟨rfl, ?_, fun _ => rfl⟩
  rw [Initiator.deployDiscovery] at hdep
  cases hd : Initiator.discover ini.iqn_id disc with
  | ok nm =>
    rw [hd] at hdep
    refine ⟨nm, rfl, ?_⟩
    have := (Prod.mk.injEq _ _ _ _).mp hdep
    rw [← this.1]
  | error e =>
    rw [hd] at hdep
    have := (Prod.mk.injEq _ _ _ _).mp hdep
    cases this.2

/-- Witness for C9's amended theorem: after a successful deploy against
a one-entry discovery listing, logout is issued for the resolved name. -/
theorem initiator_logout_issues_name_witness :
    Initiator.logout { target_host := ("10.0.0.1").data,
                       iqn_id := ("id01").data,
                       name := some (("iqn.2015-01.qa.cloud.suse.de:id01").data) }
      = .ok ⟨some (("iqn.2015-01.qa.cloud.suse.de:id01").data)⟩ ∧
    (∃ nm, Initiator.discover ("id01").data
        ("10.0.0.1:3260 iqn.2015-01.qa.cloud.suse.de:id01").data = .ok nm ∧
      some (("iqn.2015-01.qa.cloud.suse.de:id01").data) = some nm) := by
  have h := initiator_logout_issues_name
    (Initiator.init ("10.0.0.1").data ("id01").data)
    ("10.0.0.1:3260 iqn.2015-01.qa.cloud.suse.de:id01").data
    { target_host := ("10.0.0.1").data,
      iqn_id := ("id01").data,
      name := some (("iqn.2015-01.qa.cloud.suse.de:id01").data) }
    rfl
  exact ⟨h.1, h.2.1⟩

end Iscsictl
